import Mathlib

/-!
Verification of the text-block parser and numeric distribution engine of
`main.py` (PDF data processor).  The program's functions are shallowly
embedded over `List Char` (one list per line of text; a text is a `List Char`
containing newline separators).  Python `float` arithmetic is idealised as
exact rational arithmetic over `ℚ`; the Python regular expressions used by
the program are hand-compiled into executable matchers whose derivation is
documented at each definition.
-/

namespace PdfProc

/-- Python `str.isspace`-style whitespace recognised by `\s` and `str.strip`
(the ASCII subset; the program's inputs contain no exotic Unicode spaces). -/
def isWsChar (c : Char) : Bool :=
  c == ' ' || c == '\t' || c == '\n' || c == '\r' || c == '\x0b' || c == '\x0c'

/-- ASCII decimal digit, the relevant case of the regex class `\d`. -/
def isDigitChar (c : Char) : Bool :=
  48 ≤ c.toNat && c.toNat ≤ 57

/-- Membership in the regex character class `[A-Za-zÀ-ÖØ-öø-ÿ\s]` used by the
identity-line pattern of `extract_data_from_txt`. -/
def isWChar (c : Char) : Bool :=
  (65 ≤ c.toNat && c.toNat ≤ 90) || (97 ≤ c.toNat && c.toNat ≤ 122) ||
  (192 ≤ c.toNat && c.toNat ≤ 214) || (216 ≤ c.toNat && c.toNat ≤ 246) ||
  (248 ≤ c.toNat && c.toNat ≤ 255) || isWsChar c

/-- Python `str.strip()`: remove leading and trailing whitespace. -/
def strip (s : List Char) : List Char :=
  ((s.dropWhile isWsChar).reverse.dropWhile isWsChar).reverse

/-- Python substring containment `pat in s`. -/
def containsSub (s pat : List Char) : Bool :=
  if pat.isPrefixOf s then true
  else
    match s with
    | [] => false
    | _ :: t => containsSub t pat

/-- Python `text.split('\n')` on a text represented as a `List Char`. -/
def splitLines : List Char → List (List Char)
  | [] => [[]]
  | c :: rest =>
    if c = '\n' then [] :: splitLines rest
    else
      match splitLines rest with
      | l :: ls => (c :: l) :: ls
      | [] => [[c]]

/-- Python `'\n'.join(lines)`. -/
def joinLines : List (List Char) → List Char
  | [] => []
  | [l] => l
  | l :: ls => l ++ '\n' :: joinLines ls

/-- Page-boundary marker prefix skipped by `clean_text`. -/
def pageMarker : List Char := ("--- Page").data

/-- Boilerplate phrases of `clean_text` (line 84 of `main.py`). -/
def headerPhrases1 : List (List Char) :=
  [("Relação Anual").data, ("COOPERATIVA").data, ("Rubrica").data,
   ("TRABALHADOR").data, ("Página").data]

/-- Month-abbreviation header dropped by `clean_text`. -/
def monthHeader : List Char :=
  ("JAN FEV MAR ABR MAI JUN JUL AGO SET OUT NOV DEZ TOTAL").data

/-- Subtotal marker that triggers the skip-section state. -/
def totalizaMarker : List Char := ("TOTALIZA").data

/-- Reserved 3-digit prefix that does not clear the skip-section state. -/
def reservedPrefix : List Char := ("239").data

/-- Boilerplate containment test of `clean_text`. -/
def hasHeader1 (l : List Char) : Bool :=
  headerPhrases1.any (fun p => containsSub l p)

/-- Whether `l` starts with six consecutive ASCII digits. -/
def startsSixDigits (l : List Char) : Bool :=
  decide ((l.take 6).length = 6) && (l.take 6).all isDigitChar

/-- The regex search `re.search(r'\d{6}', line)`: some position of the line
starts a run of six digits. -/
def hasSixDigits : List Char → Bool
  | [] => false
  | c :: rest => startsSixDigits (c :: rest) || hasSixDigits rest

/-- The stateless skip rules of `clean_text` (page marker, boilerplate,
underscore/empty, month header, dash-only), any of which drops the line. -/
def dropLine (l : List Char) : Bool :=
  pageMarker.isPrefixOf l || hasHeader1 l || ['_'].isPrefixOf l ||
  (strip l).isEmpty || containsSub l monthHeader ||
  (strip ((strip l).filter (fun c => !(c == '-')))).isEmpty

/-- Update of the `skip_until_next_person` flag: a line containing a run of
six digits that does not start with `239` clears it. -/
def nextSkip (skip : Bool) (l : List Char) : Bool :=
  if hasSixDigits l && !(reservedPrefix.isPrefixOf l) then false else skip

/-- The per-line loop of `clean_text`: `skip` is the `skip_until_next_person`
flag; a `TOTALIZA` line sets it, a valid identity-like line clears it, and
while it is set lines are dropped. -/
def cleanLines (skip : Bool) : List (List Char) → List (List Char)
  | [] => []
  | l :: rest =>
    if dropLine l then cleanLines skip rest
    else if containsSub l totalizaMarker then cleanLines true rest
    else if nextSkip skip l then cleanLines (nextSkip skip l) rest
    else l :: cleanLines (nextSkip skip l) rest

/-- `clean_text` of `main.py`: split the text into lines, run the stateful
line filter, and rejoin with newlines. -/
def clean_text (t : List Char) : List Char :=
  joinLines (cleanLines false (splitLines t))

/-- A line that survives one pass of the filter: none of the stateless rules
fires and it does not contain the subtotal marker. -/
def keepable (l : List Char) : Prop :=
  dropLine l = false ∧ containsSub l totalizaMarker = false

/-- Boilerplate phrases of the pre-pass of `extract_data_from_txt`
(line 184 of `main.py`); note the first entry differs from
`headerPhrases1` (`Relação` instead of `Relação Anual`). -/
def headerPhrases2 : List (List Char) :=
  [("Relação").data, ("COOPERATIVA").data, ("Rubrica").data,
   ("TRABALHADOR").data, ("Página").data]

/-- Boilerplate containment test of the extractor's pre-pass. -/
def hasHeader2 (l : List Char) : Bool :=
  headerPhrases2.any (fun p => containsSub l p)

/-- The pre-pass of `extract_data_from_txt`: strip each line, drop lines
that are empty or start with an underscore or a dash, and drop lines
containing a boilerplate phrase. -/
def prePass : List (List Char) → List (List Char)
  | [] => []
  | l :: rest =>
    if (strip l).isEmpty || ['_'].isPrefixOf (strip l) || ['-'].isPrefixOf (strip l) then
      prePass rest
    else if hasHeader2 (strip l) then prePass rest
    else strip l :: prePass rest

/-- Exact match of the capture group `[\d\.]+,\d+` of the value pattern:
one or more digits or dots, then a comma, then one or more digits. -/
def isNum (s : List Char) : Bool :=
  (!(s.takeWhile (fun c => !(c == ','))).isEmpty &&
    (s.takeWhile (fun c => !(c == ','))).all (fun c => isDigitChar c || c == '.')) &&
  (match s.dropWhile (fun c => !(c == ',')) with
   | _ :: b => !b.isEmpty && b.all isDigitChar
   | [] => false)

/-- Hand-compiled `re.search(r'.*\s+([\d\.]+,\d+)$', line)`.

Because `.*` is greedy and `\s+` must end immediately before the capture
group, the engine's match (when one exists) captures the suffix that follows
the rightmost whitespace character whose entire remaining suffix is of the
form `[\d\.]+,\d+`.  The recursion below tries later positions first, hence
returns exactly that suffix. -/
def vmGo : List Char → Option (List Char)
  | [] => none
  | c :: rest =>
    match vmGo rest with
    | some r => some r
    | none => if isWsChar c && isNum rest then some rest else none

/-- The value-line matcher of `extract_data_from_txt`: the captured group of
`re.search(r'.*\s+([\d\.]+,\d+)$', line)` (already stripped; `strip` in the
source is a no-op on the captured group since it contains no whitespace). -/
def valueMatch (s : List Char) : Option (List Char) :=
  vmGo s

/-- Conditions for position `j` of `s` to be the start of the `\d{6}` anchor
of a match of `re.search(r'([A-Za-zÀ-ÖØ-öø-ÿ\s]+?)\s+(\d{6})\s+(.+)$', s)`:
six digits at `j`, preceded by at least one whitespace character which is in
turn preceded by at least one class character (so the lazy group 1 is
nonempty), and followed by one whitespace character plus at least one more
character reaching the end of the line. -/
def anchorOK (s : List Char) (j : Nat) : Bool :=
  decide (2 ≤ j) && decide (j + 8 ≤ s.length) &&
  ((List.range 6).all (fun i => isDigitChar (s.getD (j + i) 'x'))) &&
  isWsChar (s.getD (j - 1) 'x') && isWChar (s.getD (j - 2) 'x') &&
  isWsChar (s.getD (j + 6) 'x')

/-- Position of the first valid anchor; the regex engine's leftmost-match
rule selects it (an earlier anchor always yields a smaller start position
for lazy group 1, because the digits of an anchor are not in the class of
group 1). -/
def firstAnchor (s : List Char) : Option Nat :=
  (List.range s.length).find? (fun j => anchorOK s j)

/-- Hand-compiled identity-line matcher
`re.search(r'([A-Za-zÀ-ÖØ-öø-ÿ\s]+?)\s+(\d{6})\s+(.+)$', line)`
returning the stripped groups `(name, code, role)` as assigned in
`extract_data_from_txt`: group 1 is the maximal run of class characters
before the anchor (stripping makes the lazy/greedy split irrelevant),
group 2 the six digits, group 3 everything after them (whitespace greed
again irrelevant after stripping). -/
def personMatch (s : List Char) : Option (List Char × List Char × List Char) :=
  match firstAnchor s with
  | none => none
  | some j =>
    some (strip (((s.take j).reverse.takeWhile isWChar).reverse),
          (s.drop j).take 6,
          strip (s.drop (j + 6)))

/-- A record as built by `extract_data_from_txt`; the derived fields added
later by `calculate_percentages_and_distribution` are `Option`s standing for
possibly-absent dictionary keys. -/
structure Rec where
  name : List Char
  code : List Char
  role : List Char
  value : List Char
  percentage : Option (List Char) := none
  percentageFloat : Option ℚ := none
  total : Option (List Char) := none
  totalFloat : Option ℚ := none
deriving DecidableEq, Repr

/-- One record freshly created by the extractor (no derived fields). -/
def mkRec (n c r v : List Char) : Rec :=
  { name := n, code := c, role := r, value := v }

/-- The 3-line block scan of `extract_data_from_txt`: while at least three
lines remain, try the identity pattern on the cursor line; on a match,
extract the value from the next line (emitting a record only if the value
pattern matches) and advance by 3; otherwise advance by 1. -/
def scan : List (List Char) → List Rec
  | p :: v :: t :: rest =>
    match personMatch p with
    | some (n, c, r) =>
      (match valueMatch v with
       | some num => mkRec n c r num :: scan rest
       | none => scan rest)
    | none => scan (v :: t :: rest)
  | _ => []

/-- `extract_data_from_txt` of `main.py`, taking the file's lines (as
produced by `readlines`, which never yields a line with an interior
newline): pre-filter, then scan in 3-line blocks. -/
def extract_data_from_txt (lines : List (List Char)) : List Rec :=
  scan (prePass lines)

/-- The locale conversion applied to a raw value string before parsing:
`value.replace('.', '').replace(',', '.')`. -/
def convertLocale (s : List Char) : List Char :=
  (s.filter (fun c => !(c == '.'))).map (fun c => if c = ',' then '.' else c)

/-- Decimal value of a digit string (most significant digit first). -/
def digitsToNat (l : List Char) : ℕ :=
  l.foldl (fun a c => 10 * a + (c.toNat - 48)) 0

/-- Python's `float()` constructor on the decimal fragment of its grammar
(optional surrounding whitespace, optional sign, digits with an optional
dot, optional decimal exponent), idealised over `ℚ`.  The `inf`/`nan`
spellings and underscore digit separators, which no locale-converted value
string can be confused with, are not modelled. -/
def pySign : List Char → ℚ × List Char
  | [] => (1, [])
  | c :: r => if c = '+' then (1, r) else if c = '-' then (-1, r) else (1, c :: r)

def pyFloat? (s : List Char) : Option ℚ :=
  let t := strip s
  let st1 : ℚ × List Char := pySign t
  let t1 := st1.2
  let ip := t1.takeWhile isDigitChar
  let t2 := t1.dropWhile isDigitChar
  let ft3 : List Char × List Char :=
    match t2 with
    | '.' :: r => (r.takeWhile isDigitChar, r.dropWhile isDigitChar)
    | r => ([], r)
  let fp := ft3.1
  if ip.isEmpty && fp.isEmpty then none
  else
    let mant : ℚ := (digitsToNat ip : ℚ) + (digitsToNat fp : ℚ) / (10 : ℚ) ^ fp.length
    match ft3.2 with
    | [] => some (st1.1 * mant)
    | e :: r =>
      if e = 'e' ∨ e = 'E' then
        let er1 : ℤ × List Char :=
          match r with
          | '+' :: rr => (1, rr)
          | '-' :: rr => (-1, rr)
          | rr => (1, rr)
        let ed := er1.2.takeWhile isDigitChar
        if ed.isEmpty || !(er1.2.dropWhile isDigitChar).isEmpty then none
        else some (st1.1 * mant * (10 : ℚ) ^ (er1.1 * (digitsToNat ed : ℤ)))
      else none

/-- `calculate_total_value` of `main.py`: sum the locale-parsed values,
skipping records with a falsy (empty) value and records whose value fails
to parse (which only produce a console warning). -/
def calculate_total_value : List Rec → ℚ
  | [] => 0
  | r :: rest =>
    (if !r.value.isEmpty then
       match pyFloat? (convertLocale r.value) with
       | some v => v
       | none => 0
     else 0) + calculate_total_value rest

/-- Decimal digit characters of `n`, most significant first (fuelled
structural recursion; `n + 1` fuel always suffices since `n / 10 < n`). -/
def natDigitsAux : ℕ → ℕ → List Char
  | 0, _ => []
  | fuel + 1, n =>
    if n < 10 then [Nat.digitChar n]
    else natDigitsAux fuel (n / 10) ++ [Nat.digitChar (n % 10)]

/-- Decimal representation of a natural number, as Python `str` prints it. -/
def natDigits (n : ℕ) : List Char :=
  natDigitsAux (n + 1) n

/-- Left-pad a digit string with zeros to width `d`. -/
def padZeros (d : ℕ) (l : List Char) : List Char :=
  List.replicate (d - l.length) '0' ++ l

/-- Round a rational to the nearest integer, ties to even — the rounding
used by Python's fixed-point float formatting, idealised over `ℚ`. -/
def roundHalfEven (x : ℚ) : ℤ :=
  if x - x.floor < 1 / 2 then x.floor
  else if 1 / 2 < x - x.floor then x.floor + 1
  else if x.floor % 2 = 0 then x.floor else x.floor + 1

/-- The fixed-point rendering `f"{number:.{d}f}"` of a rational: sign,
integer digits, and (for positive precision) a dot followed by exactly `d`
fractional digits of the half-even-rounded magnitude. -/
def fixedPoint (q : ℚ) (d : ℕ) : List Char :=
  (if q < 0 then ['-'] else []) ++
  natDigits ((roundHalfEven (|q| * 10 ^ d)).toNat / 10 ^ d) ++
  (if d = 0 then []
   else '.' :: padZeros d (natDigits ((roundHalfEven (|q| * 10 ^ d)).toNat % 10 ^ d)))

/-- Python `formatted.split('.')` restricted to its use in
`format_brazilian_number`: the part before the first dot, and (when a dot
occurs) the part between the first dot and the next. -/
def breakDot : List Char → List Char × Option (List Char)
  | [] => ([], none)
  | c :: r =>
    if c = '.' then ([], some (r.takeWhile (fun x => !(x == '.'))))
    else ((c :: (breakDot r).1), (breakDot r).2)

/-- The thousands-separator loop of `format_brazilian_number`: iterate over
the reversed integer part with its index, prepending a dot before every
third digit (counted from the right), accumulating the result string. -/
def grFold : List Char → ℕ → List Char → List Char
  | [], _, acc => acc
  | c :: rest, i, acc =>
    grFold rest (i + 1) (c :: (if 0 < i ∧ i % 3 = 0 then '.' :: acc else acc))

/-- `format_brazilian_number` of `main.py`: fixed-point format, split at the
dot, group the integer part in threes when longer than three characters,
and rejoin with a comma as decimal separator. -/
def format_brazilian_number (q : ℚ) (d : ℕ) : List Char :=
  let fs := fixedPoint q d
  let ipart := (breakDot fs).1
  let dpart := ((breakDot fs).2).getD []
  let ip2 := if 3 < ipart.length then grFold ipart.reverse 0 [] else ipart
  if dpart.isEmpty then ip2 else ip2 ++ ',' :: dpart

/-- The all-zero derived fields assigned by the exception fallback of
`calculate_percentages_and_distribution` (the `total` keys only when a
distribution amount was supplied). -/
def zeroed (dOpt : Option ℚ) (r : Rec) : Rec :=
  { r with percentage := some (("0,000000").data),
           percentageFloat := some 0,
           total := if dOpt.isSome then some (("0,00").data) else r.total,
           totalFloat := if dOpt.isSome then some 0 else r.totalFloat }

/-- The per-record body of the loop of
`calculate_percentages_and_distribution`: records with a falsy value are
left untouched; a failed parse or a zero total (Python's `ZeroDivisionError`)
yields the zeroed fields; otherwise percentage and optional distribution
share are computed and formatted. -/
def enrich (T : ℚ) (dOpt : Option ℚ) (r : Rec) : Rec :=
  if r.value.isEmpty then r
  else
    match pyFloat? (convertLocale r.value) with
    | none => zeroed dOpt r
    | some v =>
      if T = 0 then zeroed dOpt r
      else
        match dOpt with
        | none =>
          { r with percentage := some (format_brazilian_number (v / T * 100) 6),
                   percentageFloat := some (v / T * 100) }
        | some dv =>
          { r with percentage := some (format_brazilian_number (v / T * 100) 6),
                   percentageFloat := some (v / T * 100),
                   total := some (format_brazilian_number (v / T * 100 / 100 * dv) 2),
                   totalFloat := some (v / T * 100 / 100 * dv) }

/-- `calculate_percentages_and_distribution` of `main.py`: an empty record
list is returned as is; otherwise every record is enriched against the
total of the whole list. -/
def calculate_percentages_and_distribution (data : List Rec) (dOpt : Option ℚ) : List Rec :=
  if data.isEmpty then data
  else data.map (enrich (calculate_total_value data) dOpt)

/-- The six input lines of the end-to-end scenario of the specification. -/
def c1Lines : List (List Char) :=
  [("JOAO SILVA 111111 OPERADOR").data, ("1.234,56").data, ("x").data,
   ("MARIA SOUZA 222222 ANALISTA").data, ("2.000,00").data, ("y").data]

/-- A record list with one parseable all-zero value. -/
def zeroValueData : List Rec :=
  [mkRec (("A").data) (("123456").data) (("R").data) (("0,00").data)]

/-- Grouping as the specification words it: the digit string grouped into
3-digit clusters from the right, separated by dots. -/
def specGroup (l : List Char) : List Char :=
  if l.length ≤ 3 then l
  else specGroup (l.take (l.length - 3)) ++ '.' :: l.drop (l.length - 3)
termination_by l.length
decreasing_by
  simp only [List.length_take]
  omega

/-- Closed form of the accumulator of `grFold`: the grouped string emitted
for the processed (least-significant-first) characters. -/
def grP : List Char → ℕ → List Char
  | [], _ => []
  | c :: rest, i => grP rest (i + 1) ++ c :: (if 0 < i ∧ i % 3 = 0 then ['.'] else [])


theorem containsSub_iff (s pat : List Char) :
    containsSub s pat = true ↔ pat <:+: s := by
  induction s with
  | nil =>
    rw [containsSub]
    constructor
    · intro h
      split at h
      · next hp =>
        have := List.isPrefixOf_iff_prefix.mp hp
        exact this.isInfix
      · simp at h
    · intro h
      have := List.eq_nil_of_infix_nil h
      subst this
      simp [List.isPrefixOf]
  | cons a t ih =>
    rw [containsSub]
    constructor
    · intro h
      split at h
      · next hp =>
        exact (List.isPrefixOf_iff_prefix.mp hp).isInfix
      · exact (List.infix_cons_iff.mpr (Or.inr (ih.mp h)))
    · intro h
      rcases List.infix_cons_iff.mp h with hp | hi
      · simp [List.isPrefixOf_iff_prefix.mpr hp]
      · split
        · rfl
        · exact ih.mpr hi

theorem splitLines_ne_nil (t : List Char) : splitLines t ≠ [] := by
  induction t with
  | nil => simp [splitLines]
  | cons c rest ih =>
    rw [splitLines]
    split
    · simp
    · split
      · simp
      · simp

theorem splitLines_no_newline (t : List Char) :
    ∀ l ∈ splitLines t, '\n' ∉ l := by
  induction t with
  | nil =>
    intro l hl
    simp [splitLines] at hl
    simp [hl]
  | cons c rest ih =>
    intro l hl
    rw [splitLines] at hl
    split at hl
    · rcases List.mem_cons.mp hl with h | h
      · simp [h]
      · exact ih l h
    · next hc =>
      rcases h : splitLines rest with _ | ⟨l0, ls⟩
      · exact absurd h (splitLines_ne_nil rest)
      · rw [h] at hl
        rcases List.mem_cons.mp hl with h1 | h1
        · subst h1
          intro hmem
          rcases List.mem_cons.mp hmem with h2 | h2
          · exact hc h2.symm
          · exact ih l0 (h ▸ List.mem_cons_self l0 ls) h2
        · exact ih l (h ▸ List.mem_cons_of_mem l0 h1)

theorem splitLines_single (l : List Char) (hl : '\n' ∉ l) :
    splitLines l = [l] := by
  induction l with
  | nil => rfl
  | cons c rest ih =>
    rw [splitLines]
    rw [if_neg (by simp at hl; exact fun h => hl.1 h.symm)]
    rw [ih (by simp at hl; exact hl.2)]

theorem splitLines_append (l rest : List Char) (hl : '\n' ∉ l) :
    splitLines (l ++ '\n' :: rest) = l :: splitLines rest := by
  induction l with
  | nil => simp [splitLines]
  | cons c t ih =>
    simp only [List.cons_append]
    rw [splitLines]
    rw [if_neg (by simp at hl; exact fun h => hl.1 h.symm)]
    rw [ih (by simp at hl; exact hl.2)]

theorem splitLines_joinLines (ls : List (List Char)) (hne : ls ≠ [])
    (hnl : ∀ l ∈ ls, '\n' ∉ l) :
    splitLines (joinLines ls) = ls := by
  induction ls with
  | nil => exact absurd rfl hne
  | cons l ls ih =>
    rcases ls with _ | ⟨l2, ls2⟩
    · exact splitLines_single l (hnl l (by simp))
    · have hj : joinLines (l :: l2 :: ls2) = l ++ '\n' :: joinLines (l2 :: ls2) := rfl
      rw [hj]
      rw [splitLines_append l _ (hnl l (by simp))]
      rw [ih (by simp) (fun x hx => hnl x (List.mem_cons_of_mem l hx))]

theorem mem_cleanLines_keepable (ls : List (List Char)) (f : Bool) :
    ∀ l ∈ cleanLines f ls, keepable l := by
  induction ls generalizing f with
  | nil => simp [cleanLines]
  | cons a rest ih =>
    intro l hl
    rw [cleanLines] at hl
    split at hl
    · exact ih f l hl
    · split at hl
      · exact ih true l hl
      · split at hl
        · exact ih _ l hl
        · next hdrop htot hskip =>
          rcases List.mem_cons.mp hl with h | h
          · subst h
            exact ⟨Bool.not_eq_true _ ▸ hdrop, Bool.not_eq_true _ ▸ htot⟩
          · exact ih _ l h

theorem mem_cleanLines_mem (ls : List (List Char)) (f : Bool) :
    ∀ l ∈ cleanLines f ls, l ∈ ls := by
  induction ls generalizing f with
  | nil => simp [cleanLines]
  | cons a rest ih =>
    intro l hl
    rw [cleanLines] at hl
    split at hl
    · exact List.mem_cons_of_mem a (ih f l hl)
    · split at hl
      · exact List.mem_cons_of_mem a (ih true l hl)
      · split at hl
        · exact List.mem_cons_of_mem a (ih _ l hl)
        · rcases List.mem_cons.mp hl with h | h
          · exact h ▸ List.mem_cons_self a rest
          · exact List.mem_cons_of_mem a (ih _ l h)

theorem cleanLines_of_keepable (ls : List (List Char))
    (h : ∀ l ∈ ls, keepable l) : cleanLines false ls = ls := by
  induction ls with
  | nil => rfl
  | cons a rest ih =>
    have ha := h a (List.mem_cons_self a rest)
    have hns : nextSkip false a = false := by
      rw [nextSkip]; exact ite_self false
    rw [cleanLines]
    rw [if_neg (by simp [ha.1]), if_neg (by simp [ha.2]), hns]
    rw [if_neg (by simp)]
    rw [ih (fun l hl => h l (List.mem_cons_of_mem a hl))]

/-- C3: on the input lines `["TOTALIZACAO X", "239001 foo",
"123456 Jane Doe ANALISTA", "100,50", "extra"]` the line classifier
`clean_text` outputs exactly the last three lines: the subtotal marker
enters the skip-section state, the `239`-prefixed line stays skipped, and
the line containing `123456` clears the state and is kept. -/
theorem c3_skip_section_scenario :
    clean_text (("TOTALIZACAO X\n239001 foo\n123456 Jane Doe ANALISTA\n100,50\nextra").data)
      = ("123456 Jane Doe ANALISTA\n100,50\nextra").data := by
  decide

/-- C4: the line classifier `clean_text` is idempotent: running it on its own
output returns that output unchanged, for every input text. -/
theorem c4_clean_text_idempotent :
    ∀ t : List Char, clean_text (clean_text t) = clean_text t := by
  intro t
  have hmemnl : ∀ l ∈ cleanLines false (splitLines t), '\n' ∉ l :=
    fun l hl => splitLines_no_newline t l (mem_cleanLines_mem _ _ l hl)
  have hkeep := mem_cleanLines_keepable (splitLines t) false
  simp only [clean_text]
  rcases h : cleanLines false (splitLines t) with _ | ⟨l, ls⟩
  · rfl
  · rw [h] at hmemnl hkeep
    rw [splitLines_joinLines (l :: ls) (by simp) hmemnl]
    rw [cleanLines_of_keepable (l :: ls) hkeep]

theorem hasHeader1_le_hasHeader2 (l : List Char) (h : hasHeader1 l = true) :
    hasHeader2 l = true := by
  have hsub : (("Relação").data) <+: (("Relação Anual").data) := by decide
  simp only [hasHeader1, headerPhrases1, List.any_cons, List.any_nil,
    Bool.or_eq_true, Bool.or_eq_false_iff] at h
  simp only [hasHeader2, headerPhrases2, List.any_cons, List.any_nil,
    Bool.or_eq_true]
  rcases h with h | h | h | h | h | h
  · exact Or.inl ((containsSub_iff l _).mpr
      (hsub.isInfix.trans ((containsSub_iff l _).mp h)))
  · exact Or.inr (Or.inl h)
  · exact Or.inr (Or.inr (Or.inl h))
  · exact Or.inr (Or.inr (Or.inr (Or.inl h)))
  · exact Or.inr (Or.inr (Or.inr (Or.inr (Or.inl h))))
  · simp at h

/-- C9 counterexample: a line containing `Relação` but not `Relação Anual`
is dropped by the extractor's boilerplate filter yet kept by the line
classifier's, so the two filters are not equal as functions on lines. -/
theorem c9_filters_differ :
    hasHeader2 (("Relação de valores").data) = true ∧
    hasHeader1 (("Relação de valores").data) = false := by
  decide

/-- C9 (amended): the extractor's boilerplate list replaces the classifier's
phrase `Relação Anual` by its own prefix `Relação` and keeps the other four
phrases, so the extractor's boilerplate filter drops every line the
classifier's boilerplate rule drops — one-sided subsumption instead of
equality. -/
theorem c9_extract_filter_subsumes_clean_filter :
    ∀ l : List Char, hasHeader1 l = true → hasHeader2 l = true :=
  hasHeader1_le_hasHeader2

/-- Witness for C9 at a concrete boilerplate line. -/
theorem c9_extract_filter_subsumes_clean_filter_wit :
    hasHeader2 (("x COOPERATIVA y").data) = true :=
  c9_extract_filter_subsumes_clean_filter (("x COOPERATIVA y").data) (by decide)

/-- C1 counterexample: on the specification's end-to-end scenario the
extractor followed by the aggregator does not produce two records. -/
theorem c1_not_two_records :
    ¬ ((calculate_percentages_and_distribution (extract_data_from_txt c1Lines) none).length = 2) := by
  decide

/-- C1 (amended): on the input lines of the scenario, the extractor emits no
record at all — each identity line matches, but both value lines consist
solely of the number, and the value pattern `.*\s+([\d\.]+,\d+)$` requires a
whitespace character before the number — so the aggregator returns the
empty record list (in particular no `percentage_float` values exist). -/
theorem c1_extraction_yields_no_records :
    calculate_percentages_and_distribution (extract_data_from_txt c1Lines) none = [] := by
  decide

theorem dropWhile_head_false {α : Type} {p : α → Bool} :
    ∀ (l : List α) (c : α) (b : List α), l.dropWhile p = c :: b → p c = false := by
  intro l
  induction l with
  | nil => intro c b h; simp [List.dropWhile] at h
  | cons a t ih =>
    intro c b h
    rw [List.dropWhile_cons] at h
    split at h
    · exact ih c b h
    · next hpa =>
      injection h with h1 h2
      subst h1
      exact Bool.not_eq_true _ ▸ hpa

theorem notWs_of_range (c : Char) (h1 : 44 ≤ c.toNat) (h2 : c.toNat ≤ 57) :
    isWsChar c = false := by
  have f : ∀ (d : Char) (n : ℕ), d.toNat = n → c.toNat ≠ n → (c == d) = false := by
    intro d n hd hne
    rw [beq_eq_false_iff_ne]
    rintro rfl
    exact hne hd
  rw [isWsChar, f ' ' 32 rfl (by omega), f '\t' 9 rfl (by omega),
    f '\n' 10 rfl (by omega), f '\r' 13 rfl (by omega),
    f '\x0b' 11 rfl (by omega), f '\x0c' 12 rfl (by omega)]
  rfl

theorem mem_isNum_range (s : List Char) (h : isNum s = true) :
    ∀ c ∈ s, 44 ≤ c.toNat ∧ c.toNat ≤ 57 := by
  intro c hc
  rw [isNum] at h
  rcases hd : s.dropWhile (fun c => !(c == ',')) with _ | ⟨c0, b⟩
  · rw [hd] at h
    simp at h
  · rw [hd] at h
    simp only [Bool.and_eq_true, Bool.not_eq_true', List.all_eq_true] at h
    have hc0 : c0 = ',' := by
      have := dropWhile_head_false s c0 b hd
      simpa using this
    have hsplit := List.takeWhile_append_dropWhile
      (p := fun c => !(c == ',')) (l := s)
    rw [← hsplit, hd] at hc
    rcases List.mem_append.mp hc with hmem | hmem
    · have := h.1.2 c hmem
      rcases Bool.or_eq_true _ _ |>.mp this with hdig | hdot
      · rw [isDigitChar] at hdig
        simp only [Bool.and_eq_true, decide_eq_true_eq] at hdig
        omega
      · have : c = '.' := by simpa using hdot
        subst this
        decide
    · rcases List.mem_cons.mp hmem with hmem | hmem
      · subst hmem
        subst hc0
        decide
      · have := h.2.2 c hmem
        rw [isDigitChar] at this
        simp only [Bool.and_eq_true, decide_eq_true_eq] at this
        omega

theorem isNum_not_ws (s : List Char) (h : isNum s = true) :
    ∀ c ∈ s, isWsChar c = false := by
  intro c hc
  have := mem_isNum_range s h c hc
  exact notWs_of_range c this.1 this.2

theorem vmGo_none_of_no_ws (s : List Char) (h : ∀ c ∈ s, isWsChar c = false) :
    vmGo s = none := by
  induction s with
  | nil => rfl
  | cons c rest ih =>
    rw [vmGo]
    rw [ih (fun x hx => h x (List.mem_cons_of_mem c hx))]
    rw [h c (List.mem_cons_self c rest)]
    rfl

theorem vmGo_append (pre num : List Char) (w : Char)
    (hw : isWsChar w = true) (hn : isNum num = true) :
    vmGo (pre ++ w :: num) = some num := by
  induction pre with
  | nil =>
    rw [List.nil_append, vmGo, vmGo_none_of_no_ws num (isNum_not_ws num hn),
      hw, hn]
    rfl
  | cons c pre ih =>
    rw [List.cons_append, vmGo, ih]

/-- C2 counterexample: the identity line matches and the value line consists
solely of a decimal-grouped locale number (so it ends with one), yet the
extractor emits no record: the value pattern demands whitespace before the
number. -/
theorem c2_value_without_whitespace_dropped :
    (personMatch (("JOAO SILVA 111111 OPERADOR").data)).isSome = true ∧
    isNum (("1.234,56").data) = true ∧
    extract_data_from_txt
      [("JOAO SILVA 111111 OPERADOR").data, ("1.234,56").data, ("x").data] = [] := by
  decide

/-- C2 (amended): for every block whose identity line matches, if line `i+1`
ends with a locale-format number that is preceded by a whitespace character,
the extractor emits a record whose value field is exactly that trailing
number; a line consisting solely of the number (no preceding whitespace)
yields no record. -/
theorem c2_whitespace_preceded_value_extracted
    (idline pre num t : List Char) (w : Char) (rest : List (List Char))
    (n c r : List Char)
    (hp : personMatch idline = some (n, c, r))
    (hw : isWsChar w = true) (hn : isNum num = true) :
    scan (idline :: (pre ++ w :: num) :: t :: rest)
      = mkRec n c r num :: scan rest := by
  rw [scan, hp, valueMatch, vmGo_append pre num w hw hn]

/-- Witness for C2 at a concrete block. -/
theorem c2_whitespace_preceded_value_extracted_wit :
    scan [("JOAO SILVA 111111 OPERADOR").data,
          ("PRODUTIVIDADE").data ++ ' ' :: ("1.234,56").data, ("x").data]
      = [mkRec (("JOAO SILVA").data) (("111111").data) (("OPERADOR").data)
          (("1.234,56").data)] :=
  c2_whitespace_preceded_value_extracted
    (("JOAO SILVA 111111 OPERADOR").data) (("PRODUTIVIDADE").data)
    (("1.234,56").data) (("x").data) ' ' [] _ _ _ (by decide) (by decide) (by decide)

theorem vmGo_isNum : ∀ (s num : List Char), vmGo s = some num → isNum num = true := by
  intro s
  induction s with
  | nil => intro num h; simp [vmGo] at h
  | cons c rest ih =>
    intro num h
    rcases hg : vmGo rest with _ | r
    · have h2 : (if isWsChar c && isNum rest then some rest else none) = some num := by
        rw [← h, vmGo, hg]
      by_cases hcond : (isWsChar c && isNum rest) = true
      · rw [if_pos hcond] at h2
        injection h2 with h1
        subst h1
        exact (Bool.and_eq_true _ _ |>.mp hcond).2
      · rw [if_neg hcond] at h2
        exact absurd h2 (by simp)
    · have h2 : some r = some num := by rw [← h, vmGo, hg]
      injection h2 with h1
      subst h1
      exact ih _ hg

theorem scan_value_isNum_aux :
    ∀ (k : ℕ) (ls : List (List Char)), ls.length ≤ k →
      ∀ r ∈ scan ls, isNum r.value = true := by
  intro k
  induction k with
  | zero =>
    intro ls hlen r hr
    rcases ls with _ | ⟨p, ls1⟩
    · simp [scan] at hr
    · simp at hlen
  | succ k ih =>
    intro ls hlen r hr
    rcases ls with _ | ⟨p, ls1⟩
    · simp [scan] at hr
    · rcases ls1 with _ | ⟨v, ls2⟩
      · simp [scan] at hr
      · rcases ls2 with _ | ⟨t, rest⟩
        · simp [scan] at hr
        · rw [scan] at hr
          rcases hpm : personMatch p with _ | ⟨⟨n, c, rl⟩⟩
          · rw [hpm] at hr
            exact ih (v :: t :: rest) (by simp at hlen ⊢; omega) r hr
          · rw [hpm] at hr
            rcases hvm : valueMatch v with _ | num
            · rw [hvm] at hr
              exact ih rest (by simp at hlen ⊢; omega) r hr
            · rw [hvm] at hr
              rcases List.mem_cons.mp hr with h | h
              · subst h
                exact vmGo_isNum v num hvm
              · exact ih rest (by simp at hlen ⊢; omega) r h

theorem scan_value_isNum (ls : List (List Char)) :
    ∀ r ∈ scan ls, isNum r.value = true :=
  scan_value_isNum_aux ls.length ls le_rfl

theorem takeWhile_all_eq_self {α : Type} (p : α → Bool) :
    ∀ (l : List α), l.all p = true → l.takeWhile p = l := by
  intro l
  induction l with
  | nil => intro _; rfl
  | cons a t ih =>
    intro h
    simp only [List.all_cons, Bool.and_eq_true] at h
    rw [List.takeWhile_cons, if_pos h.1, ih h.2]

theorem dropWhile_all_eq_nil {α : Type} (p : α → Bool) :
    ∀ (l : List α), l.all p = true → l.dropWhile p = [] := by
  intro l
  induction l with
  | nil => intro _; rfl
  | cons a t ih =>
    intro h
    simp only [List.all_cons, Bool.and_eq_true] at h
    rw [List.dropWhile_cons, if_pos h.1, ih h.2]

theorem dropWhile_no {α : Type} (p : α → Bool) (s : List α)
    (h : ∀ c ∈ s, p c = false) : s.dropWhile p = s := by
  cases s with
  | nil => rfl
  | cons a t =>
    rw [List.dropWhile_cons, if_neg]
    rw [h a (List.mem_cons_self a t)]
    simp

theorem strip_of_no_ws (s : List Char) (h : ∀ c ∈ s, isWsChar c = false) :
    strip s = s := by
  rw [strip, dropWhile_no isWsChar s h,
    dropWhile_no isWsChar s.reverse (fun c hc => h c (List.mem_reverse.mp hc)),
    List.reverse_reverse]

theorem takeWhile_append_of {α : Type} (p : α → Bool) (a : List α) (c : α) (b : List α)
    (ha : a.all p = true) (hc : p c = false) :
    (a ++ c :: b).takeWhile p = a ∧ (a ++ c :: b).dropWhile p = c :: b := by
  induction a with
  | nil =>
    constructor
    · rw [List.nil_append, List.takeWhile_cons, if_neg (by rw [hc]; simp)]
    · rw [List.nil_append, List.dropWhile_cons, if_neg (by rw [hc]; simp)]
  | cons x t ih =>
    simp only [List.all_cons, Bool.and_eq_true] at ha
    have := ih ha.2
    constructor
    · rw [List.cons_append, List.takeWhile_cons, if_pos ha.1, this.1]
    · rw [List.cons_append, List.dropWhile_cons, if_pos ha.1, this.2]

theorem pySign_no_sign (t : List Char)
    (h : ∀ x r, t = x :: r → x ≠ '+' ∧ x ≠ '-') : pySign t = (1, t) := by
  cases t with
  | nil => rfl
  | cons c r =>
    rw [pySign, if_neg (h c r rfl).1, if_neg (h c r rfl).2]

theorem digit_ne_signs (c : Char) (h : isDigitChar c = true) : c ≠ '+' ∧ c ≠ '-' := by
  rw [isDigitChar] at h
  simp only [Bool.and_eq_true, decide_eq_true_eq] at h
  constructor
  · rintro rfl; revert h; decide
  · rintro rfl; revert h; decide

theorem pyFloat_isSome_shape (a b : List Char) (ha : a.all isDigitChar = true)
    (hb : b.all isDigitChar = true) (hbne : b ≠ []) :
    (pyFloat? (a ++ '.' :: b)).isSome = true := by
  have hnws : ∀ c ∈ a ++ '.' :: b, isWsChar c = false := by
    intro c hc
    rcases List.mem_append.mp hc with h | h
    · have hd := List.all_eq_true.mp ha c h
      rw [isDigitChar] at hd
      simp only [Bool.and_eq_true, decide_eq_true_eq] at hd
      exact notWs_of_range c (by omega) (by omega)
    · rcases List.mem_cons.mp h with h | h
      · subst h; decide
      · have hd := List.all_eq_true.mp hb c h
        rw [isDigitChar] at hd
        simp only [Bool.and_eq_true, decide_eq_true_eq] at hd
        exact notWs_of_range c (by omega) (by omega)
  have hsign : pySign (a ++ '.' :: b) = (1, a ++ '.' :: b) := by
    apply pySign_no_sign
    intro x r hx
    cases a with
    | nil =>
      injection hx with h1 h2
      subst h1
      exact ⟨by decide, by decide⟩
    | cons y t =>
      rw [List.cons_append] at hx
      injection hx with h1 h2
      subst h1
      exact digit_ne_signs y (List.all_eq_true.mp ha y (List.mem_cons_self y t))
  have htake := takeWhile_append_of isDigitChar a '.' b ha (by decide)
  have hbe : b.isEmpty = false := by
    cases b with
    | nil => exact absurd rfl hbne
    | cons x t => rfl
  rw [pyFloat?]
  simp only [strip_of_no_ws _ hnws, hsign, htake.1, htake.2,
    takeWhile_all_eq_self isDigitChar b hb, dropWhile_all_eq_nil isDigitChar b hb,
    hbe, Bool.and_false]
  simp

theorem digit_ne_seps (c : Char) (h : isDigitChar c = true) : c ≠ '.' ∧ c ≠ ',' := by
  rw [isDigitChar] at h
  simp only [Bool.and_eq_true, decide_eq_true_eq] at h
  constructor
  · rintro rfl; revert h; decide
  · rintro rfl; revert h; decide

theorem map_id_of {α : Type} (f : α → α) (l : List α) (h : ∀ c ∈ l, f c = c) :
    l.map f = l := by
  induction l with
  | nil => rfl
  | cons a t ih =>
    rw [List.map_cons, h a (List.mem_cons_self a t),
      ih (fun c hc => h c (List.mem_cons_of_mem a hc))]

theorem isNum_parse (num : List Char) (h : isNum num = true) :
    (pyFloat? (convertLocale num)).isSome = true := by
  rw [isNum] at h
  rcases hd : num.dropWhile (fun c => !(c == ',')) with _ | ⟨c0, b⟩
  · rw [hd] at h
    simp at h
  · rw [hd] at h
    simp only [Bool.and_eq_true, Bool.not_eq_true', List.all_eq_true] at h
    have hc0 : c0 = ',' := by simpa using dropWhile_head_false num c0 b hd
    subst hc0
    have hsplit : num = num.takeWhile (fun c => !(c == ',')) ++ ',' :: b := by
      conv_lhs => rw [← List.takeWhile_append_dropWhile
        (p := fun c => !(c == ',')) (l := num)]
      rw [hd]
    have hbd : ∀ c ∈ b, isDigitChar c = true := h.2.2
    have hfb : b.filter (fun c => !(c == '.')) = b := by
      apply List.filter_eq_self.mpr
      intro c hc
      have := (digit_ne_seps c (hbd c hc)).1
      simpa using this
    have hmb : b.map (fun c => if c = ',' then '.' else c) = b := by
      apply map_id_of
      intro c hc
      exact if_neg (digit_ne_seps c (hbd c hc)).2
    have hano : ∀ c ∈ (num.takeWhile (fun c => !(c == ','))).filter
        (fun c => !(c == '.')), isDigitChar c = true := by
      intro c hc
      rcases List.mem_filter.mp hc with ⟨hmem, hnd⟩
      rcases Bool.or_eq_true _ _ |>.mp (h.1.2 c hmem) with hdig | hdot
      · exact hdig
      · exfalso
        have hcd : c = '.' := by simpa using hdot
        rw [hcd] at hnd
        simp at hnd
    have hma : ((num.takeWhile (fun c => !(c == ','))).filter
        (fun c => !(c == '.'))).map (fun c => if c = ',' then '.' else c)
        = (num.takeWhile (fun c => !(c == ','))).filter (fun c => !(c == '.')) := by
      apply map_id_of
      intro c hc
      rcases List.mem_filter.mp hc with ⟨hmem, _⟩
      have := List.mem_takeWhile_imp hmem
      exact if_neg (by simpa using this)
    have hconv : convertLocale num
        = ((num.takeWhile (fun c => !(c == ','))).filter (fun c => !(c == '.')))
          ++ '.' :: b := by
      conv_lhs => rw [convertLocale, hsplit]
      rw [List.filter_append, List.map_append]
      rw [show (',' :: b).filter (fun c => !(c == '.'))
          = ',' :: b.filter (fun c => !(c == '.')) from by simp]
      rw [hfb, List.map_cons, if_pos rfl, hmb, hma]
    rw [hconv]
    apply pyFloat_isSome_shape
    · exact List.all_eq_true.mpr hano
    · exact List.all_eq_true.mpr hbd
    · intro hbe
      rw [hbe] at h
      simp at h

theorem isNum_isEmpty_false (s : List Char) (h : isNum s = true) :
    s.isEmpty = false := by
  cases s with
  | nil => exact absurd h (by decide)
  | cons c t => rfl

theorem calcTotal_eq_sum (data : List Rec)
    (h : ∀ r ∈ data, (pyFloat? (convertLocale r.value)).isSome = true ∧
      r.value.isEmpty = false) :
    calculate_total_value data
      = (data.map (fun r => (pyFloat? (convertLocale r.value)).getD 0)).sum := by
  induction data with
  | nil => rfl
  | cons r rest ih =>
    have hr := h r (List.mem_cons_self r rest)
    rcases Option.isSome_iff_exists.mp hr.1 with ⟨v, hv⟩
    rw [calculate_total_value, hr.2, hv, List.map_cons, List.sum_cons,
      ih (fun x hx => h x (List.mem_cons_of_mem r hx)), hv]
    rfl

/-- C10: every value string captured by the extractor's value pattern parses
successfully under the locale conversion (so the numeric-conversion-failure
branch of `calculate_total_value` and the parse-failure fallback of
`calculate_percentages_and_distribution` are unreachable on extracted
records), and the computed total is exactly the sum of the parsed values of
the extracted records. -/
theorem c10_extracted_values_parse :
    ∀ lines : List (List Char),
      ((extract_data_from_txt lines).all
        (fun r => (pyFloat? (convertLocale r.value)).isSome)) = true ∧
      calculate_total_value (extract_data_from_txt lines)
        = ((extract_data_from_txt lines).map
            (fun r => (pyFloat? (convertLocale r.value)).getD 0)).sum := by
  intro lines
  have hmem : ∀ r ∈ extract_data_from_txt lines, isNum r.value = true := by
    intro r hr
    rw [extract_data_from_txt] at hr
    exact scan_value_isNum (prePass lines) r hr
  constructor
  · apply List.all_eq_true.mpr
    intro r hr
    exact isNum_parse r.value (hmem r hr)
  · apply calcTotal_eq_sum
    intro r hr
    exact ⟨isNum_parse _ (hmem r hr), isNum_isEmpty_false _ (hmem r hr)⟩

theorem pyFloat_nil : pyFloat? (convertLocale []) = none := by decide

theorem value_isEmpty_false_of_isSome (r : Rec)
    (h : (pyFloat? (convertLocale r.value)).isSome = true) :
    r.value.isEmpty = false := by
  cases hval : r.value with
  | nil =>
    rw [hval] at h
    rw [pyFloat_nil] at h
    simp at h
  | cons c t => rfl

theorem enrich_pf (T : ℚ) (dOpt : Option ℚ) (r : Rec) (v : ℚ)
    (hv : pyFloat? (convertLocale r.value) = some v) (hT : T ≠ 0) :
    (enrich T dOpt r).percentageFloat = some (v / T * 100) := by
  have hne := value_isEmpty_false_of_isSome r (by rw [hv]; rfl)
  rw [enrich, if_neg (by rw [hne]; simp), hv]
  show (if T = 0 then zeroed dOpt r else _).percentageFloat = _
  rw [if_neg hT]
  cases dOpt <;> rfl

theorem enrich_tf (T dv : ℚ) (r : Rec) (v : ℚ)
    (hv : pyFloat? (convertLocale r.value) = some v) (hT : T ≠ 0) :
    (enrich T (some dv) r).totalFloat = some (v / T * 100 / 100 * dv) := by
  have hne := value_isEmpty_false_of_isSome r (by rw [hv]; rfl)
  rw [enrich, if_neg (by rw [hne]; simp), hv]
  show (if T = 0 then zeroed (some dv) r else _).totalFloat = _
  rw [if_neg hT]

/-- C5 counterexample: in a record list whose only value is `0,00` every
value parses successfully, yet the assigned `percentage_float` values sum to
0, not 100 (the parsed total is zero, so the `ZeroDivisionError` fallback
assigns zero): the sum is off by far more than the claimed `1e-6` relative
error. -/
theorem c5_zero_total_sum_not_100 :
    (∀ r ∈ zeroValueData, (pyFloat? (convertLocale r.value)).isSome = true) ∧
    ((calculate_percentages_and_distribution zeroValueData none).map
      (fun r => r.percentageFloat.getD 0)).sum = 0 ∧
    ¬ (|(0 : ℚ) - 100| ≤ 100 * (1 / 1000000)) := by
  refine ⟨by decide, by with_unfolding_all decide, by norm_num⟩

/-- C5 (amended): for every record list in which every value parses under
the locale conversion and the parsed total is nonzero, the
`percentage_float` values assigned by the aggregator sum to exactly 100 (in
the exact-arithmetic idealisation of the claimed 1e-6 tolerance). -/
theorem c5_percentages_sum_100 (data : List Rec) (dOpt : Option ℚ)
    (hp : ∀ r ∈ data, (pyFloat? (convertLocale r.value)).isSome = true)
    (hT : calculate_total_value data ≠ 0) :
    ((calculate_percentages_and_distribution data dOpt).map
      (fun r => r.percentageFloat.getD 0)).sum = 100 := by
  have hdne : data.isEmpty = false := by
    cases hd : data.isEmpty
    · rfl
    · exact absurd (by rw [List.isEmpty_iff.mp hd]; rfl) hT
  rw [calculate_percentages_and_distribution, if_neg (by rw [hdne]; simp)]
  rw [List.map_map]
  have hmap : data.map ((fun r => r.percentageFloat.getD 0)
        ∘ enrich (calculate_total_value data) dOpt)
      = data.map (fun r => (pyFloat? (convertLocale r.value)).getD 0
        * (100 / calculate_total_value data)) := by
    apply List.map_congr_left
    intro r hr
    rcases Option.isSome_iff_exists.mp (hp r hr) with ⟨v, hv⟩
    show (enrich (calculate_total_value data) dOpt r).percentageFloat.getD 0 = _
    rw [enrich_pf _ dOpt r v hv hT, hv]
    show v / (calculate_total_value data) * 100 = _
    rw [div_mul_eq_mul_div, mul_div_assoc]
    rfl
  rw [hmap, List.sum_map_mul_right]
  rw [← calcTotal_eq_sum data
    (fun r hr => ⟨hp r hr, value_isEmpty_false_of_isSome r (hp r hr)⟩)]
  rw [mul_comm, div_mul_cancel₀ _ hT]

/-- Witness for C5 at a concrete two-record list. -/
theorem c5_percentages_sum_100_wit :
    ((calculate_percentages_and_distribution
      [mkRec [] [] [] (("1,00").data), mkRec [] [] [] (("3,00").data)] none).map
      (fun r => r.percentageFloat.getD 0)).sum = 100 :=
  c5_percentages_sum_100
    [mkRec [] [] [] (("1,00").data), mkRec [] [] [] (("3,00").data)] none
    (by decide) (by with_unfolding_all decide)

/-- C6 counterexample: with the single parseable value `0,00` and
distribution amount `D = 1`, the assigned `total_float` values sum to 0, and
`|0 - 1|` exceeds the claimed rounding error of record count × 0.01. -/
theorem c6_zero_total_distribution_not_conserved :
    (∀ r ∈ zeroValueData, (pyFloat? (convertLocale r.value)).isSome = true) ∧
    ((calculate_percentages_and_distribution zeroValueData (some 1)).map
      (fun r => r.totalFloat.getD 0)).sum = 0 ∧
    ¬ (|(0 : ℚ) - 1| ≤ 1 * (1 / 100)) := by
  refine ⟨by decide, by with_unfolding_all decide, by norm_num⟩

/-- C6 (amended): for every record list in which every value parses under
the locale conversion and the parsed total is nonzero, and every
distribution amount `D`, the `total_float` values assigned by the
aggregator sum to exactly `D` (in the exact-arithmetic idealisation of the
claimed per-record rounding tolerance). -/
theorem c6_distribution_sum_exact (data : List Rec) (dv : ℚ)
    (hp : ∀ r ∈ data, (pyFloat? (convertLocale r.value)).isSome = true)
    (hT : calculate_total_value data ≠ 0) :
    ((calculate_percentages_and_distribution data (some dv)).map
      (fun r => r.totalFloat.getD 0)).sum = dv := by
  have hdne : data.isEmpty = false := by
    cases hd : data.isEmpty
    · rfl
    · exact absurd (by rw [List.isEmpty_iff.mp hd]; rfl) hT
  rw [calculate_percentages_and_distribution, if_neg (by rw [hdne]; simp)]
  rw [List.map_map]
  have hmap : data.map ((fun r => r.totalFloat.getD 0)
        ∘ enrich (calculate_total_value data) (some dv))
      = data.map (fun r => (pyFloat? (convertLocale r.value)).getD 0
        * (dv / calculate_total_value data)) := by
    apply List.map_congr_left
    intro r hr
    rcases Option.isSome_iff_exists.mp (hp r hr) with ⟨v, hv⟩
    show (enrich (calculate_total_value data) (some dv) r).totalFloat.getD 0 = _
    rw [enrich_tf _ dv r v hv hT, hv]
    show v / (calculate_total_value data) * 100 / 100 * dv = _
    field_simp
    ring
  rw [hmap, List.sum_map_mul_right]
  rw [← calcTotal_eq_sum data
    (fun r hr => ⟨hp r hr, value_isEmpty_false_of_isSome r (hp r hr)⟩)]
  rw [mul_comm, div_mul_cancel₀ _ hT]

/-- Witness for C6 at a concrete two-record list and amount 7. -/
theorem c6_distribution_sum_exact_wit :
    ((calculate_percentages_and_distribution
      [mkRec [] [] [] (("1,00").data), mkRec [] [] [] (("3,00").data)] (some 7)).map
      (fun r => r.totalFloat.getD 0)).sum = 7 :=
  c6_distribution_sum_exact
    [mkRec [] [] [] (("1,00").data), mkRec [] [] [] (("3,00").data)] 7
    (by decide) (by with_unfolding_all decide)

theorem enrich_value (T : ℚ) (dOpt : Option ℚ) (r : Rec) :
    (enrich T dOpt r).value = r.value := by
  by_cases h : r.value.isEmpty
  · rw [enrich, if_pos h]
  · rw [enrich, if_neg h]
    rcases hp : pyFloat? (convertLocale r.value) with _ | v
    · rfl
    · show (if T = 0 then zeroed dOpt r else _).value = r.value
      by_cases hT : T = 0
      · rw [if_pos hT]; rfl
      · rw [if_neg hT]; cases dOpt <;> rfl

theorem enrich_zero_total (dOpt : Option ℚ) (r : Rec)
    (h : r.value.isEmpty = false) : enrich 0 dOpt r = zeroed dOpt r := by
  rw [enrich, if_neg (by rw [h]; simp)]
  rcases hp : pyFloat? (convertLocale r.value) with _ | v
  · rfl
  · show (if (0 : ℚ) = 0 then zeroed dOpt r else _) = zeroed dOpt r
    rw [if_pos rfl]

/-- C7 counterexample: a record whose value string is empty is falsy in
Python, so for it the aggregator assigns no derived field at all — although
the record list's parsed values sum to zero, the record does not carry the
all-zero derived fields the claim promises. -/
theorem c7_empty_value_record_unchanged :
    calculate_total_value [mkRec (("A").data) (("123456").data) (("R").data) []] = 0 ∧
    (calculate_percentages_and_distribution
        [mkRec (("A").data) (("123456").data) (("R").data) []] (some 1)).map
      (fun r => r.percentage) = [none] := by
  refine ⟨by with_unfolding_all decide, by decide⟩

/-- C7 (amended): the aggregator never raises (it is a total function); for
an empty record list it returns the empty list, and for every record list
whose parsed total is zero, every output record with a nonempty value field
carries the all-zero derived fields (`percentage` `0,000000`,
`percentage_float` 0, and, when a distribution amount is supplied, `total`
`0,00` and `total_float` 0); records with an empty (falsy) value field are
left without derived fields. -/
theorem c7_zero_total_degrades_to_zero (data : List Rec) (dOpt : Option ℚ)
    (hT : calculate_total_value data = 0) :
    ∀ r ∈ calculate_percentages_and_distribution data dOpt,
      r.value ≠ [] →
      r.percentage = some (("0,000000").data) ∧
      r.percentageFloat = some 0 ∧
      (dOpt.isSome = true →
        r.total = some (("0,00").data) ∧ r.totalFloat = some 0) := by
  intro r hr hval
  rw [calculate_percentages_and_distribution] at hr
  by_cases hd : data.isEmpty
  · rw [if_pos hd, List.isEmpty_iff.mp hd] at hr
    simp at hr
  · rw [if_neg hd] at hr
    rcases List.mem_map.mp hr with ⟨r0, hr0, henr⟩
    subst henr
    have hval0 : r0.value.isEmpty = false := by
      rw [enrich_value] at hval
      cases hv : r0.value with
      | nil => exact absurd hv hval
      | cons c t => rfl
    rw [hT, enrich_zero_total dOpt r0 hval0]
    refine ⟨rfl, rfl, fun hds => ?_⟩
    cases dOpt with
    | none => simp at hds
    | some d => exact ⟨rfl, rfl⟩

/-- Witness for C7 at a concrete one-record list with value `0,00` and a
distribution amount. -/
theorem c7_zero_total_degrades_to_zero_wit :
    (zeroed (some 1) (mkRec (("A").data) (("123456").data) (("R").data)
        (("0,00").data))).percentage = some (("0,000000").data) ∧
    (zeroed (some 1) (mkRec (("A").data) (("123456").data) (("R").data)
        (("0,00").data))).percentageFloat = some 0 ∧
    ((some (1 : ℚ)).isSome = true →
      (zeroed (some 1) (mkRec (("A").data) (("123456").data) (("R").data)
          (("0,00").data))).total = some (("0,00").data) ∧
      (zeroed (some 1) (mkRec (("A").data) (("123456").data) (("R").data)
          (("0,00").data))).totalFloat = some 0) :=
  c7_zero_total_degrades_to_zero zeroValueData (some 1)
    (by with_unfolding_all decide) _ (by with_unfolding_all decide) (by decide)

theorem grFold_eq_grP : ∀ (l : List Char) (i : ℕ) (acc : List Char),
    grFold l i acc = grP l i ++ acc := by
  intro l
  induction l with
  | nil => intro i acc; rfl
  | cons c rest ih =>
    intro i acc
    rw [grFold, ih, grP]
    by_cases h : 0 < i ∧ i % 3 = 0
    · rw [if_pos h, if_pos h]
      simp
    · rw [if_neg h, if_neg h]
      simp

theorem grP_shift : ∀ (l : List Char) (i : ℕ), 1 ≤ i →
    grP l (i + 3) = grP l i := by
  intro l
  induction l with
  | nil => intro i _; rfl
  | cons c rest ih =>
    intro i hi
    rw [grP, grP]
    have he : i + 3 + 1 = i + 1 + 3 := by omega
    rw [he, ih (i + 1) (by omega)]
    rw [if_congr (show (0 < i + 3 ∧ (i + 3) % 3 = 0) ↔ (0 < i ∧ i % 3 = 0) by
      constructor <;> intro h <;> omega) rfl rfl]

theorem grP_three (l : List Char) (h : l ≠ []) :
    grP l 3 = grP l 0 ++ ['.'] := by
  rcases l with _ | ⟨c, rest⟩
  · exact absurd rfl h
  · rw [grP, grP]
    rw [show (3 : ℕ) + 1 = 1 + 3 from rfl, grP_shift rest 1 le_rfl]
    rw [if_pos (by omega), if_neg (by omega)]
    simp

theorem grP_small : ∀ l : List Char, l.length ≤ 3 → grP l 0 = l.reverse := by
  intro l hl
  match l with
  | [] => rfl
  | [a] => simp [grP]
  | [a, b] => simp [grP]
  | [a, b, c] => simp [grP]
  | a :: b :: c :: d :: t => simp at hl

theorem grP_spec_aux : ∀ (n : ℕ) (l : List Char), l.length ≤ n →
    grP l.reverse 0 = specGroup l := by
  intro n
  induction n with
  | zero =>
    intro l hl
    have hnil : l = [] := by
      cases l with
      | nil => rfl
      | cons a t => simp at hl
    subst hnil
    rw [specGroup]
    rfl
  | succ n ih =>
    intro l hl
    by_cases h3 : l.length ≤ 3
    · rw [grP_small l.reverse (by simpa using h3), List.reverse_reverse,
        specGroup, if_pos h3]
    · have h3lt : 3 < l.length := by omega
      have htd : l.take (l.length - 3) ++ l.drop (l.length - 3) = l :=
        List.take_append_drop _ l
      have hdlen : (l.drop (l.length - 3)).length = 3 := by
        rw [List.length_drop]
        omega
      rcases List.length_eq_three.mp hdlen with ⟨x, y, z, hxyz⟩
      have htlen : (l.take (l.length - 3)).length = l.length - 3 := by
        rw [List.length_take]
        omega
      have htne : (l.take (l.length - 3)).reverse ≠ [] := by
        intro hc
        have := congrArg List.length hc
        simp only [List.length_reverse, htlen, List.length_nil] at this
        omega
      have hrev : l.reverse
          = z :: y :: x :: (l.take (l.length - 3)).reverse := by
        conv_lhs => rw [← htd]
        rw [List.reverse_append, hxyz]
        rfl
      rw [hrev, grP, grP, grP]
      rw [if_neg (by omega), if_neg (by omega), if_neg (by omega)]
      rw [show (0 : ℕ) + 1 + 1 + 1 = 3 from rfl]
      rw [grP_three _ htne]
      rw [ih (l.take (l.length - 3)) (by omega)]
      conv_rhs => rw [specGroup]
      rw [if_neg h3, hxyz]
      simp

theorem grP_spec (l : List Char) : grP l.reverse 0 = specGroup l :=
  grP_spec_aux l.length l le_rfl

theorem group_branch (l : List Char) :
    (if 3 < l.length then grFold l.reverse 0 [] else l) = specGroup l := by
  by_cases h : 3 < l.length
  · rw [if_pos h, grFold_eq_grP, List.append_nil, grP_spec l]
  · rw [if_neg h, specGroup, if_pos (by omega)]

theorem natDigitsAux_digits : ∀ (fuel n : ℕ), ∀ c ∈ natDigitsAux fuel n,
    ∃ k, k < 10 ∧ c = Nat.digitChar k := by
  intro fuel
  induction fuel with
  | zero => intro n c hc; simp [natDigitsAux] at hc
  | succ fuel ih =>
    intro n c hc
    rw [natDigitsAux] at hc
    split at hc
    · next h => exact ⟨n, h, List.mem_singleton.mp hc⟩
    · rcases List.mem_append.mp hc with h1 | h1
      · exact ih (n / 10) c h1
      · exact ⟨n % 10, Nat.mod_lt _ (by omega), List.mem_singleton.mp h1⟩

theorem digitChar_ne_dot (k : ℕ) (hk : k < 10) : Nat.digitChar k ≠ '.' := by
  interval_cases k <;> decide

theorem natDigits_no_dot (n : ℕ) : '.' ∉ natDigits n := by
  intro h
  rcases natDigitsAux_digits (n + 1) n '.' h with ⟨k, hk, he⟩
  exact digitChar_ne_dot k hk he.symm

theorem natDigits_ne_nil (n : ℕ) : natDigits n ≠ [] := by
  rw [natDigits, natDigitsAux]
  split
  · simp
  · simp

theorem breakDot_append (a b : List Char) (ha : '.' ∉ a) :
    breakDot (a ++ '.' :: b)
      = (a, some (b.takeWhile (fun x => !(x == '.')))) := by
  induction a with
  | nil => rw [List.nil_append, breakDot, if_pos rfl]
  | cons c t ih =>
    rw [List.cons_append, breakDot,
      if_neg (by intro hcd; rw [hcd] at ha; exact ha (List.mem_cons_self _ t)),
      ih (fun h => ha (List.mem_cons_of_mem c h))]

theorem padZeros_no_dot (d n : ℕ) : ∀ c ∈ padZeros d (natDigits n), c ≠ '.' := by
  intro c hc
  rw [padZeros] at hc
  rcases List.mem_append.mp hc with h | h
  · rw [List.eq_of_mem_replicate h]
    decide
  · intro hcd
    exact natDigits_no_dot n (hcd ▸ h)

theorem padZeros_ne_nil (d : ℕ) (l : List Char) (h : l ≠ []) :
    (padZeros d l).isEmpty = false := by
  rw [padZeros]
  cases hre : List.replicate (d - l.length) '0' with
  | nil =>
    rw [List.nil_append]
    cases l with
    | nil => exact absurd rfl h
    | cons c t => rfl
  | cons c t => rfl

theorem format_spec_form (q : ℚ) (d : ℕ) (hq : 0 ≤ q) (hd : 1 ≤ d) :
    format_brazilian_number q d
      = specGroup (natDigits ((roundHalfEven (q * 10 ^ d)).toNat / 10 ^ d))
        ++ ',' :: padZeros d (natDigits ((roundHalfEven (q * 10 ^ d)).toNat % 10 ^ d)) := by
  have hfs : fixedPoint q d
      = natDigits ((roundHalfEven (q * 10 ^ d)).toNat / 10 ^ d)
        ++ '.' :: padZeros d (natDigits ((roundHalfEven (q * 10 ^ d)).toNat % 10 ^ d)) := by
    rw [fixedPoint, abs_of_nonneg hq, if_neg (not_lt.mpr hq), if_neg (by omega)]
    rw [List.nil_append]
  have htw : (padZeros d (natDigits ((roundHalfEven (q * 10 ^ d)).toNat % 10 ^ d))).takeWhile
      (fun x => !(x == '.'))
      = padZeros d (natDigits ((roundHalfEven (q * 10 ^ d)).toNat % 10 ^ d)) := by
    apply takeWhile_all_eq_self
    apply List.all_eq_true.mpr
    intro c hc
    have := padZeros_no_dot d _ c hc
    simpa using this
  simp only [format_brazilian_number]
  rw [hfs]
  rw [breakDot_append _ _ (natDigits_no_dot _)]
  simp only [Option.getD_some]
  rw [htw]
  rw [padZeros_ne_nil d _ (natDigits_ne_nil _)]
  rw [if_neg (by simp)]
  rw [group_branch]

/-- C8 counterexample: with a decimal-place count of 0 the formatter emits
no comma at all (`"0"`), so the claim's "for every decimal-place count the
fractional part is appended after a comma" fails at count 0. -/
theorem c8_zero_places_no_comma :
    format_brazilian_number 0 0 = ("0").data ∧
    ',' ∉ format_brazilian_number 0 0 := by
  with_unfolding_all decide

/-- C8 (amended): the two concrete formatting facts hold, and for every
non-negative rational and every positive decimal-place count the output is
the integer part of the half-even-rounded value grouped into 3-digit
clusters separated by dots, followed by a comma and the fractional digits
padded to the requested precision (rounding idealised over exact
rationals). -/
theorem c8_locale_format :
    format_brazilian_number ((1234567.5 : ℚ)) 2 = ("1.234.567,50").data ∧
    format_brazilian_number 0 6 = ("0,000000").data ∧
    ∀ (q : ℚ) (d : ℕ), 0 ≤ q → 1 ≤ d →
      format_brazilian_number q d
        = specGroup (natDigits ((roundHalfEven (q * 10 ^ d)).toNat / 10 ^ d))
          ++ ',' :: padZeros d (natDigits ((roundHalfEven (q * 10 ^ d)).toNat % 10 ^ d)) :=
  ⟨by with_unfolding_all decide, by with_unfolding_all decide,
   fun q d hq hd => format_spec_form q d hq hd⟩

/-- Witness for C8's universally quantified part at `q = 1`, `d = 1`. -/
theorem c8_locale_format_wit :
    format_brazilian_number 1 1
      = specGroup (natDigits ((roundHalfEven ((1 : ℚ) * 10 ^ 1)).toNat / 10 ^ 1))
        ++ ',' :: padZeros 1 (natDigits ((roundHalfEven ((1 : ℚ) * 10 ^ 1)).toNat % 10 ^ 1)) :=
  c8_locale_format.2.2 1 1 (by with_unfolding_all decide) (by decide)

end PdfProc
